import Mathlib

/-!
Verification of the BookBlog persistence and authentication engine
(`src/bookblog/app.py`) against its specification.

Python strings are modelled as lists of Unicode code points (`List Char`);
`str.lower` is modelled by ASCII case folding (all inputs of interest are
ASCII), `str.strip` by dropping whitespace on both ends, and substring tests
(`q in s`) by a direct scan.  The SHA-256 digest is kept abstract: every
definition that hashes is parameterised by a digest function `H` applied to
`salt ++ password`, exactly as `hashlib.sha256((salt + password).encode())`
is applied in the source.  Fresh values produced by the environment
(`uuid4().hex`, `datetime.utcnow()`) are passed as explicit arguments.
-/

namespace BookBlog

/-- Python strings as sequences of code points. -/
abbrev Str := List Char

/-- Model of `str.lower` (ASCII case folding). -/
def lowerStr (s : Str) : Str := s.map Char.toLower

/-- Model of `str.strip`: drop whitespace from both ends. -/
def trimStr (s : Str) : Str :=
  ((s.dropWhile Char.isWhitespace).reverse.dropWhile Char.isWhitespace).reverse

/-- `isPref q t = true` iff `q` is an initial segment of `t`. -/
def isPref : Str → Str → Bool
  | [], _ => true
  | _ :: _, [] => false
  | a :: as, b :: bs => a == b && isPref as bs

/-- Model of Python's `q in s`: `q` occurs contiguously inside `s`. -/
def containsStr (s q : Str) : Bool :=
  s.tails.any (fun t => isPref q t)

/-- Lexicographic `≤` on strings by code point, as Python compares `str`. -/
def leStr : Str → Str → Bool
  | [], _ => true
  | _ :: _, [] => false
  | a :: as, b :: bs => if a < b then true else if b < a then false else leStr as bs

/-- Model of `" ".join(xs)`. -/
def joinSp (xs : List Str) : Str := List.intercalate [' '] xs

/-- A record of `books.json` (the fields `add_book` writes). -/
structure Book where
  id : Str
  title : Str
  author : Str
  year : Str
  tags : List Str
  description : Str
  cover_path : Str
  created_at : Str
  owner : Str
deriving DecidableEq

/-- A record of `comments.json` (the fields `add_comment` writes). -/
structure Comment where
  id : Str
  book_id : Str
  user : Str
  text : Str
  created_at : Str
deriving DecidableEq

/-- A record of `users.json` (the fields `create_user_record` writes). -/
structure User where
  id : Str
  username : Str
  salt : Str
  password_hash : Str
  role : Str
  created_at : Str
deriving DecidableEq

/-- The minimal identity record returned by `authenticate`. -/
structure Identity where
  id : Str
  username : Str
  role : Str
deriving DecidableEq

instance {ε α : Type _} [DecidableEq ε] [DecidableEq α] :
    DecidableEq (Except ε α) := fun a b =>
  match a, b with
  | .ok x, .ok y =>
    if h : x = y then isTrue (by rw [h]) else isFalse (by simp [h])
  | .error x, .error y =>
    if h : x = y then isTrue (by rw [h]) else isFalse (by simp [h])
  | .ok _, .error _ => isFalse (by simp)
  | .error _, .ok _ => isFalse (by simp)

/-! ## Atomic document store (`load_json`, `save_json`) -/

/-- The two disk locations one collection touches: the `.tmp` sibling that
`save_json` writes, and the final `.json` path that readers load.  `none`
means the file does not exist. -/
structure FS where
  tmpFile : Option Str
  finalFile : Option Str
deriving DecidableEq

/-- `tmp.write_text(...)`: replace the temporary file's content. -/
def writeTmp (fs : FS) (s : Str) : FS := { fs with tmpFile := some s }

/-- `tmp.replace(path)`: atomically move the temporary file onto the final
path (the temporary file ceases to exist). -/
def renameTmp (fs : FS) : FS := { tmpFile := none, finalFile := fs.tmpFile }

/-- `save_json(path, data)`: serialize, write the `.tmp` sibling, then one
atomic rename onto the final path.  `ser` models `json.dumps`. -/
def save_json (ser : β → Str) (fs : FS) (data : β) : FS :=
  renameTmp (writeTmp fs (ser data))

/-- `load_json(path)`: parse the final file; any failure (missing file or
unparseable content) yields `[]`.  `parse` models `json.loads` restricted to
documents that are arrays of records. -/
def load_json (parse : Str → Option (List γ)) : Option Str → List γ
  | none => []
  | some s =>
    match parse s with
    | none => []
    | some v => v

/-- States observable while `save_json ser fs data` runs: the initial state,
any state in which a proper portion of the serialized document has reached
the temporary file (`tmp.write_text` in progress or interrupted), and any
state after the rename, which happens only once the temporary file holds the
complete document.  The final path is never written directly. -/
inductive SaveMicro (ser : β → Str) (data : β) : FS → FS → Prop
  | here (fs : FS) : SaveMicro ser data fs fs
  | chunk (fs fs' : FS) (p : Str) (h : SaveMicro ser data fs fs')
      (hp : isPref p (ser data) = true) : SaveMicro ser data fs (writeTmp fs' p)
  | rename (fs fs' : FS) (h : SaveMicro ser data fs fs')
      (hfull : fs'.tmpFile = some (ser data)) : SaveMicro ser data fs (renameTmp fs')

/-! ## Authentication subsystem -/

/-- `hash_password(password, salt)`: the digest is `H` applied to
`salt + password`; `H` abstracts `sha256(...).hexdigest()`.  A caller that
passes no salt supplies a fresh `uuid4().hex`, modelled by the explicit
`salt` argument. -/
def hash_password (H : Str → Str) (password salt : Str) : Str × Str :=
  (salt, H (salt ++ password))

/-- `create_user_record(username, password, role)` with the fresh values
(`id`, `salt`, `created_at`) passed explicitly.  Note the username is stored
stripped. -/
def create_user_record (H : Str → Str) (idv salt now : Str)
    (username password role : Str) : User :=
  { id := idv
    username := trimStr username
    salt := salt
    password_hash := (hash_password H password salt).2
    role := role
    created_at := now }

/-- `get_user(username)`: first user whose stored username matches the given
one case-insensitively. -/
def get_user (users : List User) (username : Str) : Option User :=
  match users with
  | [] => none
  | u :: us =>
    if lowerStr u.username = lowerStr username then some u
    else get_user us username

/-- `raise ValueError("El usuario ya existe.")` -/
def elUsuarioYaExiste : Str :=
  ['E', 'l', ' ', 'u', 's', 'u', 'a', 'r', 'i', 'o', ' ', 'y', 'a', ' ',
   'e', 'x', 'i', 's', 't', 'e', '.']

/-- `add_user(username, password, role)`: reject when some stored username
equals the given (unstripped) username case-insensitively, otherwise append
a new record and return the updated store together with the record. -/
def add_user (H : Str → Str) (idv salt now : Str) (users : List User)
    (username password role : Str) : Except Str (List User × User) :=
  if ∃ u ∈ users, lowerStr u.username = lowerStr username then
    Except.error elUsuarioYaExiste
  else
    let nu := create_user_record H idv salt now username password role
    Except.ok (users ++ [nu], nu)

/-- The in-place mutation `update_user_password` performs on the matching
record: `u["salt"] = salt; u["password_hash"] = h`. -/
def resetPw (H : Str → Str) (newSalt npw : Str) (u : User) : User :=
  { u with salt := newSalt, password_hash := (hash_password H npw newSalt).2 }

/-- `update_user_password(user_id, new_password)`: walk the store, replace
the salt and digest of the first user whose id matches, keep the rest;
`none` models `raise ValueError("Usuario no encontrado.")`.  The fresh salt
is the explicit `newSalt` argument. -/
def update_user_password (H : Str → Str) (newSalt : Str) (users : List User)
    (user_id new_password : Str) : Option (List User) :=
  match users with
  | [] => none
  | u :: us =>
    if u.id = user_id then some (resetPw H newSalt new_password u :: us)
    else (update_user_password H newSalt us user_id new_password).map (u :: ·)

/-- `delete_user(user_id)`: keep every user whose id differs. -/
def delete_user (users : List User) (user_id : Str) : List User :=
  users.filter (fun u => decide (u.id ≠ user_id))

/-- `authenticate(username, password)`: look up by username, recompute the
digest with the stored salt, compare against the stored digest. -/
def authenticate (H : Str → Str) (users : List User)
    (username password : Str) : Option Identity :=
  match get_user users username with
  | none => none
  | some u =>
    if (hash_password H password u.salt).2 = u.password_hash then
      some { id := u.id, username := u.username, role := u.role }
    else none

/-! ## Catalog repository -/

/-- `add_book(title, author, year, tags, description, cover_path)`: the
fresh `uuid4().hex`, timestamp and the ambient session username are passed
explicitly (`idv`, `now`, `owner`).  The function performs no validation: it
builds the record and appends it. -/
def add_book (books : List Book) (idv now owner : Str)
    (title author year tags description cover_path : Str) :
    List Book × Book :=
  let book : Book :=
    { id := idv
      title := trimStr title
      author := trimStr author
      year := if year = [] then [] else trimStr year
      tags := if tags = [] then [] else (tags.splitOn ',').map trimStr
      description := trimStr description
      cover_path := cover_path
      created_at := now
      owner := owner }
  (books ++ [book], book)

/-- `raise`-free UI path around `add_book` (`main`, the "Guardar libro"
handler): reject a title that strips to empty without touching the store,
otherwise call `add_book`. -/
def elTituloEsObligatorio : Str :=
  ['E', 'l', ' ', 't', 'í', 't', 'u', 'l', 'o', ' ', 'e', 's', ' ',
   'o', 'b', 'l', 'i', 'g', 'a', 't', 'o', 'r', 'i', 'o', '.']

/-- The form-submission flow of `main`: `if not title.strip(): st.error(...)`,
else `add_book(...)`. -/
def submit_new_book (books : List Book) (idv now owner : Str)
    (title author year tags description cover_path : Str) :
    Except Str (List Book × Book) :=
  if trimStr title = [] then Except.error elTituloEsObligatorio
  else Except.ok (add_book books idv now owner title author year tags description cover_path)

/-- `delete_book(book_id)`: drop the book records with that id, then drop
every comment whose `book_id` matches.  (The best-effort unlink of the cover
asset is a disk side effect outside the JSON state and is not modelled.) -/
def delete_book (books : List Book) (comments : List Comment)
    (book_id : Str) : List Book × List Comment :=
  (books.filter (fun b => decide (b.id ≠ book_id)),
   comments.filter (fun c => decide (c.book_id ≠ book_id)))

/-- `get_comments(book_id)`: comments whose `book_id` matches, in document
order. -/
def get_comments (comments : List Comment) (book_id : Str) : List Comment :=
  comments.filter (fun c => decide (c.book_id = book_id))

/-! ## Search -/

/-- The haystack `search_books` builds for one book:
`" ".join([title, author, year, " ".join(tags), description])`. -/
def bookHaystack (b : Book) : Str :=
  joinSp [b.title, b.author, b.year, joinSp b.tags, b.description]

/-- Sort key order of the listings: `created_at` descending («`a` may come
before `b`» means `b`'s timestamp is at most `a`'s). -/
def byCreatedDesc (a b : Book) : Prop :=
  leStr b.created_at a.created_at = true

instance : DecidableRel byCreatedDesc :=
  fun a b => inferInstanceAs (Decidable (_ = true))

/-- `search_books(q)`: lowercase and strip the query; empty means all books,
otherwise filter by substring match on the lowercased haystack; both
branches sort by `created_at` descending (Python's stable `sorted` with
`reverse=True`, modelled by stable insertion sort). -/
def search_books (books : List Book) (q : Str) : List Book :=
  let qn := trimStr (lowerStr q)
  if qn = [] then List.insertionSort byCreatedDesc books
  else
    List.insertionSort byCreatedDesc
      (books.filter (fun b => containsStr (lowerStr (bookHaystack b)) qn))

/-! ## Identity reconciler

Modelled from the spec: the Identity Reconciler (`merge(base, incoming)`) of
§4.2 is part of this repository's archive import path but its source is not
among the provided files; the definitions below follow the spec's words.
An index of `base`'s identifiers is built once; each incoming record whose
identifier already exists in `base` replaces the existing record in place
(first occurrence), every other incoming record — identifier absent from
`base`, or no identifier at all — is appended. -/

/-- Identifiers present in a collection. -/
def recIds (getId : α → Option Str) (l : List α) : List Str :=
  l.filterMap getId

/-- Replace the first record carrying identifier `rid` by `r`, keeping its
position; leave the collection unchanged when no record carries `rid`. -/
def replaceFirstById (getId : α → Option Str) (rid : Str) (r : α) :
    List α → List α
  | [] => []
  | x :: xs =>
    if getId x = some rid then r :: xs
    else x :: replaceFirstById getId rid r xs

/-- Modelled from the spec: one step of the reconciler for a single incoming
record, against the fixed index `baseIds` of the original base. -/
def mergeStep (getId : α → Option Str) (baseIds : List Str)
    (acc : List α) (r : α) : List α :=
  match getId r with
  | none => acc ++ [r]
  | some rid =>
    if rid ∈ baseIds then replaceFirstById getId rid r acc
    else acc ++ [r]

/-- Modelled from the spec: `merge(base, incoming)` of the Identity
Reconciler (§4.2). -/
def merge (getId : α → Option Str) (base incoming : List α) : List α :=
  incoming.foldl (mergeStep getId (recIds getId base)) base

/-! ## Concrete fixtures used by witnesses and counterexamples -/

/-- A stand-in digest function for concrete evaluation: injective on
`salt ++ password`, which is the only property of SHA-256 the theorems
assume. -/
def Hid : Str → Str := fun s => s

def bobStr : Str := ['b', 'o', 'b']

def bobPadStr : Str := [' ', 'b', 'o', 'b']

def pwStr : Str := ['p', 'w']

def npwStr : Str := ['n', 'p']

def roleUser : Str := ['u', 's', 'e', 'r']

/-- The user record `add_user` builds for username `"bob"`. -/
def nuBob : User :=
  create_user_record Hid ['i', '1'] ['s', '1'] ['t', '1'] bobStr pwStr roleUser

/-- The user record `add_user` builds for username `" bob"` (note the
leading space: the record stores the stripped form `"bob"`). -/
def nuPad : User :=
  create_user_record Hid ['i', '2'] ['s', '2'] ['t', '2'] bobPadStr pwStr roleUser

/-- Default admin record materialized by `ensure_storage` on first run. -/
def adminRec : User :=
  create_user_record Hid ['a', '0'] ['s', '0'] ['t', '0']
    ['a', 'd', 'm', 'i', 'n'] ['a', 'd', 'm', 'i', 'n', '1', '2', '3']
    ['a', 'd', 'm', 'i', 'n']

/-- A one-book catalog: title `"dune"`, every other field empty. -/
def bDune : Book :=
  { id := ['1'], title := ['d', 'u', 'n', 'e'], author := [], year := [],
    tags := [], description := [], cover_path := [], created_at := [],
    owner := [] }

/-- The query `" dune"`, whose leading space `search_books` strips. -/
def qPadDune : Str := [' ', 'd', 'u', 'n', 'e']

def fsW : FS := { tmpFile := none, finalFile := some ['o'] }

def serW : Str → Str := fun s => s

def parseW : Str → Option (List Str) := fun s => some [s]

def parseW2 : Str → Option (List Str) :=
  fun s => if s = [] then none else some [s]

def uA : User :=
  { id := ['x'], username := ['a'], salt := ['s'], password_hash := ['h'],
    role := roleUser, created_at := ['t'] }

/-! ## C1: atomicity of `save_json` -/

/-- C1: `save_json` serializes to the temporary sibling and performs a single
atomic rename onto the final path, so a `load_json` running at any
observable point during the save reads either the fully-old or the
fully-new document, never a partially written one; and once the save has
completed, `load_json` reads the new document. -/
theorem save_json_atomic (parse : Str → Option (List γ)) (ser : β → Str)
    (data : β) (fs0 s : FS) (h : SaveMicro ser data fs0 s) :
    (load_json parse s.finalFile = load_json parse fs0.finalFile ∨
      load_json parse s.finalFile = load_json parse (some (ser data)))
    ∧ load_json parse (save_json ser fs0 data).finalFile
        = load_json parse (some (ser data)) := by
  constructor
  · induction h with
    | here => exact Or.inl rfl
    | chunk fs' p h hp ih => simpa [writeTmp] using ih
    | rename fs' h hfull ih =>
      right
      simp [renameTmp, hfull]
  · rfl

/-- Witness for C1 at a concrete mid-write state. -/
theorem save_json_atomic_witness :
    (load_json parseW (writeTmp fsW ['n']).finalFile
        = load_json parseW fsW.finalFile ∨
      load_json parseW (writeTmp fsW ['n']).finalFile
        = load_json parseW (some (serW ['n'])))
    ∧ load_json parseW (save_json serW fsW ['n']).finalFile
        = load_json parseW (some (serW ['n'])) :=
  save_json_atomic parseW serW ['n'] fsW (writeTmp fsW ['n'])
    (SaveMicro.chunk fsW fsW ['n'] (SaveMicro.here fsW) (by decide))

/-! ## C5: cascade delete -/

/-- C5: `delete_book` removes exactly the book records with the given id,
removes exactly the comments whose `book_id` matches it, and afterwards
`get_comments` for that id returns the empty sequence. -/
theorem delete_book_cascade (books : List Book) (comments : List Comment)
    (bid : Str) :
    (∀ b, b ∈ (delete_book books comments bid).1 ↔ b ∈ books ∧ b.id ≠ bid)
    ∧ (∀ c, c ∈ (delete_book books comments bid).2 ↔
        c ∈ comments ∧ c.book_id ≠ bid)
    ∧ get_comments (delete_book books comments bid).2 bid = [] := by
  refine ⟨fun b => ?_, fun c => ?_, ?_⟩
  · simp [delete_book, List.mem_filter]
  · simp [delete_book, List.mem_filter]
  · rw [get_comments, List.filter_eq_nil_iff]
    intro c hc
    rw [delete_book] at hc
    simp only [List.mem_filter, decide_eq_true_eq] at hc
    simp [hc.2]

/-! ## C7: load failures degrade to an empty sequence -/

/-- C7: `load_json` returns the empty sequence when the file is missing or
its content does not parse, and the parsed record sequence otherwise. -/
theorem load_json_error_fallback (parse : Str → Option (List γ)) :
    load_json parse none = ([] : List γ)
    ∧ (∀ s, parse s = none → load_json parse (some s) = [])
    ∧ (∀ s v, parse s = some v → load_json parse (some s) = v) := by
  refine ⟨rfl, fun s hs => ?_, fun s v hv => ?_⟩
  · simp [load_json, hs]
  · simp [load_json, hv]

/-- Witness for C7: a parser that fails on the empty document and succeeds
elsewhere. -/
theorem load_json_error_fallback_witness :
    load_json parseW2 none = ([] : List Str)
    ∧ load_json parseW2 (some []) = []
    ∧ load_json parseW2 (some ['a']) = [['a']] :=
  ⟨(load_json_error_fallback parseW2).1,
   (load_json_error_fallback parseW2).2.1 [] (by decide),
   (load_json_error_fallback parseW2).2.2 ['a'] [['a']] (by decide)⟩

/-! ## C10: delete_user is exact and never fails -/

/-- C10: `delete_user` removes exactly the user records whose id matches,
and when no stored user carries the id the store is returned unchanged (the
function is total: there is no error path). -/
theorem delete_user_exact (users : List User) (uid : Str) :
    (∀ u, u ∈ delete_user users uid ↔ u ∈ users ∧ u.id ≠ uid)
    ∧ ((∀ u ∈ users, u.id ≠ uid) → delete_user users uid = users) := by
  constructor
  · intro u
    simp [delete_user, List.mem_filter]
  · intro h
    rw [delete_user, List.filter_eq_self]
    intro u hu
    simpa using h u hu

/-- Witness for C10 on a store that does not contain the deleted id. -/
theorem delete_user_exact_witness :
    (uA ∈ delete_user [uA] ['y'] ↔ uA ∈ [uA] ∧ uA.id ≠ ['y'])
    ∧ delete_user [uA] ['y'] = [uA] :=
  ⟨(delete_user_exact [uA] ['y']).1 uA,
   (delete_user_exact [uA] ['y']).2 (by decide)⟩

/-! ## C8: title validation around `add_book` -/

/-- C8 counterexample: `add_book` itself performs no validation — called
with a title consisting of one space it appends a record (with empty stored
title) instead of failing and leaving the collection unchanged. -/
theorem add_book_appends_blank_title :
    (add_book [] ['i'] ['n'] ['o'] [' '] [] [] [] [] []).1
      ≠ ([] : List Book) := by
  decide

/-- C8 (amended): the title validation lives in the form-submission flow
wrapped around `add_book`: a title that trims to empty is rejected with the
validation message and the store is untouched; otherwise `add_book` is
called, which appends a record carrying the supplied fresh identifier and
creation timestamp and the trimmed title. -/
theorem submit_new_book_validates (books : List Book)
    (idv now owner title author year tags description cover_path : Str) :
    (trimStr title = [] →
      submit_new_book books idv now owner title author year tags description
          cover_path
        = Except.error elTituloEsObligatorio)
    ∧ (trimStr title ≠ [] →
      ∃ bk : Book,
        submit_new_book books idv now owner title author year tags description
            cover_path
          = Except.ok (books ++ [bk], bk)
        ∧ bk.id = idv ∧ bk.created_at = now ∧ bk.title = trimStr title) := by
  constructor
  · intro h
    simp [submit_new_book, h]
  · intro h
    refine ⟨(add_book books idv now owner title author year tags description
      cover_path).2, ?_, rfl, rfl, rfl⟩
    simp [submit_new_book, h, add_book]

/-- Witness for C8 on both branches. -/
theorem submit_new_book_validates_witness :
    submit_new_book [] ['i'] ['n'] ['o'] [' '] [] [] [] [] []
      = Except.error elTituloEsObligatorio
    ∧ ∃ bk : Book,
        submit_new_book [] ['i'] ['n'] ['o'] ['a'] [] [] [] [] []
          = Except.ok ([] ++ [bk], bk)
        ∧ bk.id = ['i'] ∧ bk.created_at = ['n'] ∧ bk.title = trimStr ['a'] :=
  ⟨(submit_new_book_validates [] ['i'] ['n'] ['o'] [' '] [] [] [] []
      []).1 (by decide),
   (submit_new_book_validates [] ['i'] ['n'] ['o'] ['a'] [] [] [] []
      []).2 (by decide)⟩

/-! ## C6: the duplicate check misses whitespace-padded usernames -/

/-- C6: on the store reached from the default admin by `add_user("bob")`
followed by `add_user(" bob")`, the second call succeeds — its duplicate
check compares the unstripped input, yet the record stores the stripped
username — leaving two users whose stored usernames are case-insensitively
equal, violating the store's uniqueness invariant. -/
theorem add_user_strip_collision :
    add_user Hid ['i', '1'] ['s', '1'] ['t', '1'] [adminRec] bobStr pwStr
        roleUser
      = Except.ok ([adminRec, nuBob], nuBob)
    ∧ add_user Hid ['i', '2'] ['s', '2'] ['t', '2'] [adminRec, nuBob]
        bobPadStr pwStr roleUser
      = Except.ok ([adminRec, nuBob, nuPad], nuPad)
    ∧ ¬ (([adminRec, nuBob, nuPad].map
          (fun u => lowerStr u.username)).Nodup) := by
  refine ⟨by decide, by decide, by decide⟩

/-! ## Order lemmas for the `created_at` sort -/

theorem leStr_total : ∀ a b : Str, leStr a b = true ∨ leStr b a = true
  | [], _ => Or.inl rfl
  | _ :: _, [] => Or.inr rfl
  | a :: as, b :: bs => by
    rcases lt_trichotomy a b with h | h | h
    · left
      simp [leStr, h]
    · subst h
      rcases leStr_total as bs with ih | ih
      · left
        simp [leStr, lt_irrefl, ih]
      · right
        simp [leStr, lt_irrefl, ih]
    · right
      simp [leStr, h]

theorem leStr_trans :
    ∀ a b c : Str, leStr a b = true → leStr b c = true → leStr a c = true
  | [], _, _, _, _ => rfl
  | _ :: _, [], _, h1, _ => by simp [leStr] at h1
  | _ :: _, _ :: _, [], _, h2 => by simp [leStr] at h2
  | a :: as, b :: bs, c :: cs, h1, h2 => by
    rcases lt_trichotomy a b with hab | hab | hab
    · rcases lt_trichotomy b c with hbc | hbc | hbc
      · simp [leStr, lt_trans hab hbc]
      · subst hbc
        simp [leStr, hab]
      · simp [leStr, hbc, lt_asymm hbc] at h2
    · subst hab
      rcases lt_trichotomy a c with hbc | hbc | hbc
      · simp [leStr, hbc]
      · subst hbc
        simp only [leStr, lt_self_iff_false, if_false, reduceIte] at h1 h2 ⊢
        exact leStr_trans as bs cs h1 h2
      · simp [leStr, hbc, lt_asymm hbc] at h2
    · simp [leStr, hab, lt_asymm hab] at h1

instance : IsTotal Book byCreatedDesc :=
  ⟨fun a b => leStr_total b.created_at a.created_at⟩

instance : IsTrans Book byCreatedDesc :=
  ⟨fun a b c hab hbc =>
    leStr_trans c.created_at b.created_at a.created_at hbc hab⟩

/-! ## C9: whitespace-only queries -/

theorem toLower_of_whitespace {c : Char} (h : c.isWhitespace = true) :
    c.toLower = c := by
  have h' : c = ' ' ∨ c = '\t' ∨ c = '\r' ∨ c = '\n' := by
    simpa [Char.isWhitespace, or_assoc] using h
  rcases h' with h | h | h | h <;> subst h <;> decide

theorem trimStr_lowerStr_of_whitespace (q : Str)
    (hws : ∀ c ∈ q, c.isWhitespace = true) :
    trimStr (lowerStr q) = [] := by
  have hlow : lowerStr q = q := by
    unfold lowerStr
    induction q with
    | nil => rfl
    | cons c cs ih =>
      have hc := hws c (by simp)
      simp only [List.map_cons, toLower_of_whitespace hc, List.cons.injEq,
        true_and]
      exact ih (fun d hd => hws d (by simp [hd]))
  rw [hlow, trimStr]
  have hdrop : q.dropWhile Char.isWhitespace = [] :=
    List.dropWhile_eq_nil_iff.mpr hws
  simp [hdrop]

/-- C9: a query consisting only of whitespace is stripped to the empty
query before the emptiness test, so `search_books` treats it exactly like
the empty query. -/
theorem search_books_whitespace_query (books : List Book) (q : Str)
    (hws : ∀ c ∈ q, c.isWhitespace = true) :
    search_books books q = search_books books [] := by
  unfold search_books
  rw [trimStr_lowerStr_of_whitespace q hws]
  simp [lowerStr, trimStr]

/-- Witness for C9 on the query `" \t"`. -/
theorem search_books_whitespace_query_witness :
    search_books [bDune] [' ', '\t'] = search_books [bDune] [] :=
  search_books_whitespace_query [bDune] [' ', '\t'] (by decide)

/-! ## C3: search -/

/-- C3 counterexample: for the one-book catalog `[bDune]` and the query
`" dune"` (nonempty, with a leading space), `search_books` returns the book
because it matches the stripped query, yet the book's haystack does not
contain the query itself case-insensitively — so search does not return
"exactly the subset whose concatenated fields contain q". -/
theorem search_books_untrimmed_query_cex :
    search_books [bDune] qPadDune = [bDune]
    ∧ containsStr (lowerStr (bookHaystack bDune)) (lowerStr qPadDune)
        = false := by
  constructor
  · decide
  · decide

/-- C3 (amended): `search_books` matches against the trimmed, lowercased
query: it returns, sorted by `created_at` descending, exactly the books
whose space-joined title, author, year, tags and description contain
`trim(lower(q))` case-insensitively — all books when the query trims to
empty. -/
theorem search_books_spec (books : List Book) (q : Str) :
    List.Sorted byCreatedDesc (search_books books q)
    ∧ ∀ b, b ∈ search_books books q ↔
        b ∈ books ∧
          (trimStr (lowerStr q) = [] ∨
            containsStr (lowerStr (bookHaystack b)) (trimStr (lowerStr q))
              = true) := by
  constructor
  · unfold search_books
    by_cases hq : trimStr (lowerStr q) = [] <;>
      simp only [hq, if_true, if_false, reduceIte] <;>
      exact List.sorted_insertionSort _ _
  · intro b
    unfold search_books
    by_cases hq : trimStr (lowerStr q) = []
    · simp [hq, (List.perm_insertionSort byCreatedDesc books).mem_iff]
    · simp [hq, (List.perm_insertionSort byCreatedDesc _).mem_iff,
        List.mem_filter]

/-! ## Lookup lemmas for the user store -/

theorem get_user_append_of_no_match (pre rest : List User) (un : Str)
    (h : ∀ v ∈ pre, lowerStr v.username ≠ lowerStr un) :
    get_user (pre ++ rest) un = get_user rest un := by
  induction pre with
  | nil => rfl
  | cons v vs ih =>
    rw [List.cons_append]
    simp only [get_user]
    rw [if_neg (h v (by simp))]
    exact ih (fun w hw => h w (by simp [hw]))

theorem get_user_mem {users : List User} {un : Str} {r : User}
    (h : get_user users un = some r) :
    r ∈ users ∧ lowerStr r.username = lowerStr un := by
  induction users with
  | nil => simp [get_user] at h
  | cons u us ih =>
    by_cases hm : lowerStr u.username = lowerStr un
    · simp only [get_user, if_pos hm, Option.some.injEq] at h
      subst h
      exact ⟨by simp, hm⟩
    · simp only [get_user, if_neg hm] at h
      have := ih h
      exact ⟨by simp [this.1], this.2⟩

theorem get_user_first {pre : List User} {x : User} {post : List User}
    {un : Str} {r : User}
    (h : get_user (pre ++ x :: post) un = some r) :
    r ∈ pre ∨
      ((∀ v ∈ pre, lowerStr v.username ≠ lowerStr un) ∧
        get_user (x :: post) un = some r) := by
  induction pre with
  | nil => exact Or.inr ⟨by simp, h⟩
  | cons v vs ih =>
    rw [List.cons_append] at h
    by_cases hm : lowerStr v.username = lowerStr un
    · simp only [get_user, if_pos hm, Option.some.injEq] at h
      exact Or.inl (by simp [← h])
    · simp only [get_user, if_neg hm] at h
      rcases ih h with hin | ⟨hall, hres⟩
      · exact Or.inl (by simp [hin])
      · refine Or.inr ⟨?_, hres⟩
        intro w hw
        rcases List.mem_cons.mp hw with rfl | hw
        · exact hm
        · exact hall w hw

theorem update_user_password_shape {H : Str → Str} {newSalt : Str}
    {users : List User} {uid npw : Str} {users2 : List User}
    (h : update_user_password H newSalt users uid npw = some users2) :
    ∃ pre u post,
      users = pre ++ u :: post ∧ u.id = uid ∧ (∀ v ∈ pre, v.id ≠ uid) ∧
        users2 = pre ++ (resetPw H newSalt npw u :: post) := by
  induction users generalizing users2 with
  | nil => simp [update_user_password] at h
  | cons u us ih =>
    by_cases hid : u.id = uid
    · simp only [update_user_password, if_pos hid, Option.some.injEq] at h
      exact ⟨[], u, us, by simp, hid, by simp, h.symm⟩
    · simp only [update_user_password, if_neg hid, Option.map_eq_some'] at h
      obtain ⟨us2, hus2, hcons⟩ := h
      obtain ⟨pre, w, post, hsplit, hwid, hpre, hres⟩ := ih hus2
      refine ⟨u :: pre, w, post, by simp [hsplit], hwid, ?_, by simp [← hcons, hres]⟩
      intro v hv
      rcases List.mem_cons.mp hv with rfl | hv
      · exact hid
      · exact hpre v hv

/-! ## C2 (amended): authenticate tracks the latest password -/

/-- C2 (amended): assuming the digest is collision-free on a fixed salt, and
for usernames unchanged by stripping (the store keeps the stripped form):
right after a successful `add_user(u, pw)`, `authenticate(u, p)` returns the
minimal identity record of the new user exactly when `p = pw`; and right
after `update_user_password(r.id, npw)` on a store with distinct user ids in
which `u` resolves to `r`, `authenticate(u, p)` returns `r`'s identity
record exactly when `p = npw`.  In all other cases it returns `none`. -/
theorem authenticate_latest_password (H : Str → Str)
    (hinj : ∀ s p q : Str, H (s ++ p) = H (s ++ q) → p = q) :
    (∀ (users : List User) (username pw role idv salt now : Str)
        (users1 : List User) (nu : User) (p : Str),
      trimStr username = username →
      add_user H idv salt now users username pw role
        = Except.ok (users1, nu) →
      authenticate H users1 username p =
        if p = pw then
          some { id := nu.id, username := nu.username, role := nu.role }
        else none)
    ∧
    (∀ (users : List User) (username : Str) (r : User)
        (npw newSalt : Str) (users2 : List User) (p : Str),
      (users.map User.id).Nodup →
      get_user users username = some r →
      update_user_password H newSalt users r.id npw = some users2 →
      authenticate H users2 username p =
        if p = npw then
          some { id := r.id, username := r.username, role := r.role }
        else none) := by
  constructor
  · intro users username pw role idv salt now users1 nu p htrim hok
    by_cases hex : ∃ u ∈ users, lowerStr u.username = lowerStr username
    · simp [add_user, hex] at hok
    · simp only [add_user, if_neg hex, Except.ok.injEq, Prod.mk.injEq] at hok
      obtain ⟨h1, h2⟩ := hok
      subst h1
      subst h2
      push_neg at hex
      have hguNew :
          get_user
            (users ++ [create_user_record H idv salt now username pw role])
            username
          = some (create_user_record H idv salt now username pw role) := by
        rw [get_user_append_of_no_match _ _ _ hex]
        have hm : lowerStr
            (create_user_record H idv salt now username pw role).username
            = lowerStr username := by
          show lowerStr (trimStr username) = lowerStr username
          rw [htrim]
        simp [get_user, hm]
      simp only [authenticate, hguNew]
      by_cases hp : p = pw
      · subst hp
        simp [hash_password, create_user_record]
      · have hcond : ¬ (H (salt ++ p) = H (salt ++ pw)) :=
          fun hc => hp (hinj salt p pw hc)
        simp [hp, hcond, hash_password, create_user_record]
  · intro users username r npw newSalt users2 p hnodup hgu hupd
    obtain ⟨pre, u, post, huser, huid, hpre, husers2⟩ :=
      update_user_password_shape hupd
    subst huser
    subst husers2
    rcases get_user_first hgu with hin | ⟨hall, hres⟩
    · exact absurd rfl (hpre r hin)
    · by_cases hm : lowerStr u.username = lowerStr username
      · have hru : u = r := by
          simpa [get_user, hm] using hres
        subst hru
        have hgu2 :
            get_user (pre ++ (resetPw H newSalt npw u :: post)) username
              = some (resetPw H newSalt npw u) := by
          rw [get_user_append_of_no_match _ _ _ hall]
          simp only [get_user]
          rw [if_pos (show lowerStr (resetPw H newSalt npw u).username
            = lowerStr username from hm)]
        simp only [authenticate, hgu2]
        by_cases hp : p = npw
        · subst hp
          simp [hash_password, resetPw]
        · have hcond : ¬ (H (newSalt ++ p) = H (newSalt ++ npw)) := by
            intro hc
            exact hp (hinj newSalt p npw hc)
          simp [hp, hash_password, resetPw, hcond]
      · exfalso
        have hres' : get_user post username = some r := by
          simpa [get_user, hm] using hres
        have hrpost := (get_user_mem hres').1
        have hmap : ((pre ++ u :: post).map User.id).Nodup := hnodup
        rw [List.map_append, List.map_cons] at hmap
        have h2 := hmap.of_append_right
        have hnotin := (List.nodup_cons.mp h2).1
        have : u.id ∈ post.map User.id := by
          rw [huid]
          exact List.mem_map_of_mem User.id hrpost
        exact hnotin this

/-- The stand-in digest is injective for a fixed salt. -/
theorem HidInj : ∀ s p q : Str, Hid (s ++ p) = Hid (s ++ q) → p = q :=
  fun _ _ _ h => List.append_cancel_left h

/-- The record produced by resetting `nuBob`'s password to `"np"`. -/
def nuBobReset : User := resetPw Hid ['s', '2'] npwStr nuBob

/-- Witness for C2 (amended) on both conjuncts: a fresh `"bob"` account
authenticates with its creation password, and after a password reset with
the new one. -/
theorem authenticate_latest_password_witness :
    authenticate Hid ([] ++ [nuBob]) bobStr pwStr
      = (if pwStr = pwStr then
          some { id := nuBob.id, username := nuBob.username,
                 role := nuBob.role }
         else none)
    ∧ authenticate Hid [nuBobReset] bobStr npwStr
      = (if npwStr = npwStr then
          some { id := nuBob.id, username := nuBob.username,
                 role := nuBob.role }
         else none) :=
  ⟨(authenticate_latest_password Hid HidInj).1 [] bobStr pwStr roleUser
      ['i', '1'] ['s', '1'] ['t', '1'] ([] ++ [nuBob]) nuBob pwStr
      (by decide) (by decide),
   (authenticate_latest_password Hid HidInj).2 [nuBob] bobStr nuBob npwStr
      ['s', '2'] [nuBobReset] npwStr (by decide) (by decide) (by decide)⟩

/-- C2 counterexample: for the username `" bob"` (leading space), the most
recent `createUser(" bob", "pw")` call succeeds and stores the stripped
username `"bob"`, after which `authenticate(" bob", "pw")` returns `none`
because the lookup compares against the unstripped name — so authentication
does not succeed with the password of the most recent `createUser` call for
that username. -/
theorem authenticate_padded_username_cex :
    add_user Hid ['i', '2'] ['s', '2'] ['t', '2'] [] bobPadStr pwStr roleUser
      = Except.ok ([nuPad], nuPad)
    ∧ authenticate Hid [nuPad] bobPadStr pwStr = none :=
  ⟨by decide, by decide⟩

/-! ## Reconciler lemmas -/

/-- The first record of the collection that carries identifier `rid` is
`r`. -/
def firstWithId {α : Type*} (getId : α → Option Str) (rid : Str) (r : α) :
    List α → Prop
  | [] => False
  | x :: xs => if getId x = some rid then x = r else firstWithId getId rid r xs

theorem replaceFirstById_eq_self {α : Type*} (getId : α → Option Str)
    (rid : Str) (r : α) :
    ∀ l : List α, firstWithId getId rid r l →
      replaceFirstById getId rid r l = l
  | [], h => by simp [firstWithId] at h
  | x :: xs, h => by
    by_cases hx : getId x = some rid
    · simp only [firstWithId, if_pos hx] at h
      subst h
      simp only [replaceFirstById, if_pos hx]
    · simp only [firstWithId, if_neg hx] at h
      simp only [replaceFirstById, if_neg hx, List.cons.injEq, true_and]
      exact replaceFirstById_eq_self getId rid r xs h

theorem map_getId_replaceFirstById {α : Type*} (getId : α → Option Str)
    {rid : Str} {r : α} (hr : getId r = some rid) :
    ∀ l : List α,
      (replaceFirstById getId rid r l).map getId = l.map getId
  | [] => rfl
  | x :: xs => by
    by_cases hx : getId x = some rid
    · simp [replaceFirstById, if_pos hx, hr, hx]
    · simp only [replaceFirstById, if_neg hx, List.map_cons,
        List.cons.injEq, true_and]
      exact map_getId_replaceFirstById getId hr xs

theorem firstWithId_append {α : Type*} (getId : α → Option Str)
    {rid : Str} {r : α} :
    ∀ (l l' : List α), firstWithId getId rid r l →
      firstWithId getId rid r (l ++ l')
  | [], _, h => by simp [firstWithId] at h
  | x :: xs, l', h => by
    by_cases hx : getId x = some rid
    · simp only [firstWithId, if_pos hx] at h
      simp only [List.cons_append, firstWithId, if_pos hx]
      exact h
    · simp only [firstWithId, if_neg hx] at h
      simp only [List.cons_append, firstWithId, if_neg hx]
      exact firstWithId_append getId xs l' h

theorem firstWithId_append_fresh {α : Type*} (getId : α → Option Str)
    {rid : Str} {r : α} (hr : getId r = some rid) :
    ∀ l : List α, some rid ∉ l.map getId →
      firstWithId getId rid r (l ++ [r])
  | [], _ => by simp [firstWithId, hr]
  | x :: xs, habs => by
    have hx : getId x ≠ some rid := by
      intro hc
      exact habs (by simp [hc])
    simp only [List.cons_append, firstWithId, if_neg hx]
    exact firstWithId_append_fresh getId hr xs (fun hc => habs (by simp [hc]))

theorem firstWithId_replace_other {α : Type*} (getId : α → Option Str)
    {rid rid' : Str} {r r' : α} (hne : rid' ≠ rid)
    (hr' : getId r' = some rid') :
    ∀ l : List α, firstWithId getId rid r l →
      firstWithId getId rid r (replaceFirstById getId rid' r' l)
  | [], h => by simp [firstWithId] at h
  | x :: xs, h => by
    by_cases hx' : getId x = some rid'
    · have hx : getId x ≠ some rid := by
        rw [hx']
        intro hc
        exact hne (by injection hc)
      have hr'ne : getId r' ≠ some rid := by
        rw [hr']
        intro hc
        exact hne (by injection hc)
      simp only [firstWithId, if_neg hx] at h
      simp only [replaceFirstById, if_pos hx', firstWithId, if_neg hr'ne]
      exact h
    · simp only [replaceFirstById, if_neg hx']
      by_cases hx : getId x = some rid
      · simp only [firstWithId, if_pos hx] at h ⊢
        exact h
      · simp only [firstWithId, if_neg hx] at h ⊢
        exact firstWithId_replace_other getId hne hr' xs h

theorem firstWithId_replace_self {α : Type*} (getId : α → Option Str)
    {rid : Str} {r : α} (hr : getId r = some rid) :
    ∀ l : List α, some rid ∈ l.map getId →
      firstWithId getId rid r (replaceFirstById getId rid r l)
  | [], hmem => by simp at hmem
  | x :: xs, hmem => by
    by_cases hx : getId x = some rid
    · simp only [replaceFirstById, if_pos hx, firstWithId, if_pos hr]
    · have hmem' : some rid ∈ xs.map getId := by
        rw [List.map_cons] at hmem
        rcases List.mem_cons.mp hmem with h | h
        · exact absurd h.symm hx
        · exact h
      simp only [replaceFirstById, if_neg hx, firstWithId, if_neg hx]
      exact firstWithId_replace_self getId hr xs hmem'

theorem firstWithId_mem_map {α : Type*} (getId : α → Option Str)
    {rid : Str} {r : α} :
    ∀ l : List α, firstWithId getId rid r l → some rid ∈ l.map getId
  | [], h => by simp [firstWithId] at h
  | x :: xs, h => by
    by_cases hx : getId x = some rid
    · simp [hx]
    · simp only [firstWithId, if_neg hx] at h
      simp only [List.map_cons, List.mem_cons]
      exact Or.inr (firstWithId_mem_map getId xs h)

theorem mergeStep_no_id {α : Type*} (getId : α → Option Str)
    (bIds : List Str) (acc : List α) {r : α} (h0 : getId r = none) :
    mergeStep getId bIds acc r = acc ++ [r] := by
  rw [mergeStep, h0]

theorem mergeStep_replace {α : Type*} (getId : α → Option Str)
    (bIds : List Str) (acc : List α) {r : α} {rid : Str}
    (h0 : getId r = some rid) (hb : rid ∈ bIds) :
    mergeStep getId bIds acc r = replaceFirstById getId rid r acc := by
  rw [mergeStep, h0]
  show (if rid ∈ bIds then replaceFirstById getId rid r acc
    else acc ++ [r]) = replaceFirstById getId rid r acc
  exact if_pos hb

theorem mergeStep_append {α : Type*} (getId : α → Option Str)
    (bIds : List Str) (acc : List α) {r : α} {rid : Str}
    (h0 : getId r = some rid) (hb : rid ∉ bIds) :
    mergeStep getId bIds acc r = acc ++ [r] := by
  rw [mergeStep, h0]
  show (if rid ∈ bIds then replaceFirstById getId rid r acc
    else acc ++ [r]) = acc ++ [r]
  exact if_neg hb

theorem mem_map_mergeStep {α : Type*} (getId : α → Option Str)
    (bIds : List Str) (acc : List α) (r : α) {x : Option Str}
    (hx : x ∈ acc.map getId) :
    x ∈ (mergeStep getId bIds acc r).map getId := by
  cases h0 : getId r with
  | none =>
    rw [mergeStep_no_id getId bIds acc h0, List.map_append]
    exact List.mem_append_left _ hx
  | some rid =>
    by_cases hb : rid ∈ bIds
    · rw [mergeStep_replace getId bIds acc h0 hb,
        map_getId_replaceFirstById getId h0]
      exact hx
    · rw [mergeStep_append getId bIds acc h0 hb, List.map_append]
      exact List.mem_append_left _ hx

theorem mem_map_mergeStep_rev {α : Type*} (getId : α → Option Str)
    (bIds : List Str) (acc : List α) (r : α) {x : Option Str}
    (hx : x ∈ (mergeStep getId bIds acc r).map getId) :
    x ∈ acc.map getId ∨ x = getId r := by
  cases h0 : getId r with
  | none =>
    rw [mergeStep_no_id getId bIds acc h0, List.map_append,
      List.map_cons, List.map_nil] at hx
    rcases List.mem_append.mp hx with h | h
    · exact Or.inl h
    · exact Or.inr ((List.mem_singleton.mp h).trans h0)
  | some rid =>
    by_cases hb : rid ∈ bIds
    · rw [mergeStep_replace getId bIds acc h0 hb,
        map_getId_replaceFirstById getId h0] at hx
      exact Or.inl hx
    · rw [mergeStep_append getId bIds acc h0 hb, List.map_append,
        List.map_cons, List.map_nil] at hx
      rcases List.mem_append.mp hx with h | h
      · exact Or.inl h
      · exact Or.inr ((List.mem_singleton.mp h).trans h0)

theorem foldl_mergeStep_stable {α : Type*} (getId : α → Option Str)
    (bIds : List Str) {rid : Str} {r : α} :
    ∀ (inc acc : List α),
      (∀ r' ∈ inc, ∀ rid', getId r' = some rid' → rid' ≠ rid) →
      firstWithId getId rid r acc →
      firstWithId getId rid r (inc.foldl (mergeStep getId bIds) acc)
  | [], _, _, h => h
  | r0 :: rest, acc, hsafe, h => by
    rw [List.foldl_cons]
    apply foldl_mergeStep_stable getId bIds rest _
      (fun r' hr' => hsafe r' (by simp [hr']))
    cases h0 : getId r0 with
    | none =>
      rw [mergeStep_no_id getId bIds acc h0]
      exact firstWithId_append getId acc [r0] h
    | some rid0 =>
      have hne : rid0 ≠ rid := hsafe r0 (by simp) rid0 h0
      by_cases hb : rid0 ∈ bIds
      · rw [mergeStep_replace getId bIds acc h0 hb]
        exact firstWithId_replace_other getId hne h0 acc h
      · rw [mergeStep_append getId bIds acc h0 hb]
        exact firstWithId_append getId acc [r0] h

theorem foldl_mergeStep_first {α : Type*} (getId : α → Option Str)
    (bIds : List Str) :
    ∀ (inc acc : List α),
      (recIds getId inc).Nodup →
      (∀ s ∈ bIds, some s ∈ acc.map getId) →
      (∀ r ∈ inc, ∀ rid, getId r = some rid → rid ∉ bIds →
        some rid ∉ acc.map getId) →
      ∀ r ∈ inc, ∀ rid, getId r = some rid →
        firstWithId getId rid r (inc.foldl (mergeStep getId bIds) acc)
  | [], _, _, _, _ => by
    intro r hr
    simp at hr
  | r0 :: rest, acc, hnodup, hpres, hfresh => by
    intro r hr rid hrid
    rw [List.foldl_cons]
    rcases List.mem_cons.mp hr with rfl | hr
    · have hacc' : firstWithId getId rid r (mergeStep getId bIds acc r) := by
        by_cases hb : rid ∈ bIds
        · rw [mergeStep_replace getId bIds acc hrid hb]
          exact firstWithId_replace_self getId hrid acc (hpres rid hb)
        · rw [mergeStep_append getId bIds acc hrid hb]
          exact firstWithId_append_fresh getId hrid acc
            (hfresh r (by simp) rid hrid hb)
      apply foldl_mergeStep_stable getId bIds rest _ ?_ hacc'
      intro r' hr' rid' hrid'
      have hnotin : rid ∉ recIds getId rest := by
        have hcons : (recIds getId (r :: rest)).Nodup := hnodup
        rw [recIds, List.filterMap_cons, hrid] at hcons
        exact (List.nodup_cons.mp hcons).1
      intro hcontra
      subst hcontra
      exact hnotin (List.mem_filterMap.mpr ⟨r', hr', hrid'⟩)
    · apply foldl_mergeStep_first getId bIds rest (mergeStep getId bIds acc r0)
        ?_ ?_ ?_ r hr rid hrid
      · cases h0 : getId r0 with
        | none =>
          have : recIds getId (r0 :: rest) = recIds getId rest := by
            rw [recIds, recIds, List.filterMap_cons, h0]
          rw [← this]
          exact hnodup
        | some rid0 =>
          have hcons : (recIds getId (r0 :: rest)).Nodup := hnodup
          rw [recIds, List.filterMap_cons, h0] at hcons
          exact (List.nodup_cons.mp hcons).2
      · exact fun s hs => mem_map_mergeStep getId bIds acc r0 (hpres s hs)
      · intro r' hr' rid' hrid' hb hcontra
        rcases mem_map_mergeStep_rev getId bIds acc r0 hcontra with hmem | heq
        · exact hfresh r' (by simp [hr']) rid' hrid' hb hmem
        · cases h0 : getId r0 with
          | none =>
            rw [h0] at heq
            exact Option.noConfusion heq
          | some rid0 =>
            rw [h0] at heq
            have hrr : rid' = rid0 := by injection heq
            subst hrr
            have hcons : (recIds getId (r0 :: rest)).Nodup := hnodup
            rw [recIds, List.filterMap_cons, h0] at hcons
            exact (List.nodup_cons.mp hcons).1
              (List.mem_filterMap.mpr ⟨r', hr', hrid'⟩)

theorem foldl_fixed_of_mem {α β : Type*} (f : β → α → β) (b : β) :
    ∀ l : List α, (∀ a ∈ l, f b a = b) → l.foldl f b = b
  | [], _ => rfl
  | a :: as, h => by
    rw [List.foldl_cons, h a (by simp)]
    exact foldl_fixed_of_mem f b as (fun x hx => h x (by simp [hx]))

/-! ## C4: merge idempotence -/

/-- C4 counterexample: for `A = []` and `B = [record without identifier]`,
the reconciler appends the identifier-less record on every pass, so
`merge(merge(A,B), B) ≠ merge(A,B)`. -/
theorem merge_missing_id_not_idempotent_cex :
    merge (fun x => x) (merge (fun x => x) ([] : List (Option Str)) [none])
        [none]
      ≠ merge (fun x => x) ([] : List (Option Str)) [none] := by
  decide

/-- C4 (amended): merging the same `incoming` twice into the same `base`
yields the same result as merging it once, provided every incoming record
carries an identifier and the incoming identifiers are pairwise distinct
(identifier-less incoming records are always appended, so they would be
duplicated by a second pass). -/
theorem merge_idempotent_of_keyed {α : Type*} (getId : α → Option Str)
    (base incoming : List α)
    (hall : ∀ r ∈ incoming, (getId r).isSome = true)
    (hnodup : (recIds getId incoming).Nodup) :
    merge getId (merge getId base incoming) incoming
      = merge getId base incoming := by
  have hfw : ∀ r ∈ incoming, ∀ rid, getId r = some rid →
      firstWithId getId rid r (merge getId base incoming) := by
    intro r hr rid hrid
    rw [merge]
    apply foldl_mergeStep_first getId (recIds getId base) incoming base
      hnodup ?_ ?_ r hr rid hrid
    · intro s hs
      rw [recIds] at hs
      obtain ⟨a, ha, hga⟩ := List.mem_filterMap.mp hs
      exact List.mem_map.mpr ⟨a, ha, hga⟩
    · intro r' _ rid' _ hb hmem
      apply hb
      obtain ⟨a, ha, hga⟩ := List.mem_map.mp hmem
      rw [recIds]
      exact List.mem_filterMap.mpr ⟨a, ha, hga⟩
  rw [show merge getId (merge getId base incoming) incoming
    = incoming.foldl
        (mergeStep getId (recIds getId (merge getId base incoming)))
        (merge getId base incoming) from rfl]
  apply foldl_fixed_of_mem
  intro r hr
  obtain ⟨rid, hrid⟩ := Option.isSome_iff_exists.mp (hall r hr)
  have hf := hfw r hr rid hrid
  have hmem : rid ∈ recIds getId (merge getId base incoming) := by
    rw [recIds]
    obtain ⟨a, ha, hga⟩ := List.mem_map.mp (firstWithId_mem_map getId _ hf)
    exact List.mem_filterMap.mpr ⟨a, ha, hga⟩
  rw [mergeStep_replace getId _ _ hrid hmem]
  exact replaceFirstById_eq_self getId rid r _ hf

/-- A keyed base collection for the idempotence witness. -/
def baseW : List (Option Str × Nat) := [(some ['a'], 0)]

/-- A keyed incoming collection (one replacement, one append). -/
def incW : List (Option Str × Nat) := [(some ['a'], 1), (some ['b'], 2)]

/-- Witness for C4 (amended) on concrete keyed collections. -/
theorem merge_idempotent_of_keyed_witness :
    merge Prod.fst (merge Prod.fst baseW incW) incW
      = merge Prod.fst baseW incW :=
  merge_idempotent_of_keyed Prod.fst baseW incW (by decide) (by decide)

end BookBlog
